import Mathlib

/-!
# Verification of `stochastic`: spatial point process thinning sampler

Shallow embedding of `src/stochastic/continuous/spatial_point_process.py`.

Modelling conventions:
* numpy floating point values are embedded as `ℚ` (exact arithmetic);
  `np.random.uniform`/`np.random.randint` draws are read off a stream
  `Rng : ℕ → ℚ` of values in `[0, 1)`, consumed in exactly the order the
  numpy calls occur in the source (dimension-major rows, then the block of
  acceptance thresholds `U`).
* Python exceptions are the error values of `PyErr`; a Python function that
  may raise returns `Res α` (`ok` = normal return, `exn` = raised,
  `more` = the unbounded `while` loop is still running after the simulated
  number of iterations, i.e. potential non-termination).
* `scipy.optimize.minimize` is an external deterministic numerical routine;
  it is abstracted as an `Optimizer` parameter that receives exactly the
  arguments the source passes (objective, starting point `x0`, bounds) and
  yields the point `max.x` of the result object.
* A d-dimensional numpy weight array is `NdArray`: a shape together with an
  entry function on index tuples.
-/

namespace Stochastic

/-- Python exceptions that the modelled code can raise. -/
inductive PyErr where
  | attributeError
  | valueError
  | nameError
  | typeError
  | indexError
  deriving DecidableEq, Repr

/-- Result of running a (possibly looping) Python call: `ok` is a normal
return value, `exn` a raised exception, `more` means the `while` loop had
not finished within the simulated number of iterations. -/
inductive Res (α : Type) where
  | ok (v : α)
  | exn (e : PyErr)
  | more
  deriving DecidableEq, Repr

/-- Map over the normal-return value of a `Res`. -/
def Res.map {α β : Type} (g : α → β) : Res α → Res β
  | .ok v => .ok (g v)
  | .exn e => .exn e
  | .more => .more

/-- The stream of unit-interval draws backing `np.random`. -/
def Rng : Type := ℕ → ℚ

/-- The random stream is valid: every draw lies in `[0, 1)`. -/
def RngOk (r : Rng) : Prop := ∀ i, 0 ≤ r i ∧ r i < 1

/-- Model of `np.random.uniform(low, high)` realised from one unit draw `u`. -/
def uniformDraw (low high u : ℚ) : ℚ := low + (high - low) * u

/-- Model of `np.random.randint(0, k)` realised from one unit draw `u`. -/
def randintDraw (k : ℕ) (u : ℚ) : ℕ := (⌊(k : ℚ) * u⌋).toNat

/-- One generated row of `blocksize` values: the `j`-th entry is obtained
by applying the per-dimension generator `g` to the draw at offset `s + j`. -/
def drawRow {α : Type} (g : ℚ → α) (r : Rng) (s b : ℕ) : List α :=
  (List.range b).map fun j => g (r (s + j))

/-- The stacked candidate matrix `Unthinned` (one row per dimension, built
by successive `np.vstack`): row `i` consumes the draws at offsets
`s + i*b .. s + i*b + b - 1`. -/
def drawBlock {α : Type} : List (ℚ → α) → Rng → ℕ → ℕ → List (List α)
  | [], _, _, _ => []
  | g :: gs, r, s, b => drawRow g r s b :: drawBlock gs r (s + b) b

/-- The acceptance-threshold vector `U = np.random.uniform(size=blocksize)`. -/
def uRow (r : Rng) (s b : ℕ) : List ℚ :=
  (List.range b).map fun j => r (s + j)

/-- The columns of a `d × b` matrix, i.e. the `b` candidate points of
`Unthinned.T` (each a list of `d` coordinates).  `x0` is a default never
used when every row has length `b`. -/
def columnsD {α : Type} (x0 : α) (m : List (List α)) (b : ℕ) : List (List α) :=
  (List.range b).map fun j => m.map fun row => row.getD j x0

/-- numpy boolean-mask column selection `Unthinned[:, U < Criteria]`:
keep, in order, the candidates whose threshold is strictly below the
criterion. -/
def acceptFilter {α : Type} (u crit : List ℚ) (cand : List α) : List α :=
  (cand.zip (u.zip crit)).filterMap fun x =>
    if x.2.1 < x.2.2 then some x.1 else none

/-- A d-dimensional numpy array: a shape and an entry for every index
tuple. -/
structure NdArray where
  shape : List ℕ
  data : List ℕ → ℚ

/-- Total number of elements (`np.ndarray.size`). -/
def NdArray.size (a : NdArray) : ℕ := a.shape.prod

/-- All index tuples of a given shape, in row-major order. -/
def allIdx : List ℕ → List (List ℕ)
  | [] => [[]]
  | k :: ks => (List.range k).flatMap fun i => (allIdx ks).map fun t => i :: t

/-- The flattened list of entries of the array. -/
def NdArray.entries (a : NdArray) : List ℚ := (allIdx a.shape).map a.data

/-- Model of `np.amax`: the maximum entry of the (nonempty) array; `0` is a junk
value for the empty array, on which the numpy call raises instead. -/
def NdArray.amax (a : NdArray) : ℚ :=
  match a.entries with
  | [] => 0
  | x :: xs => xs.foldl max x

/-- The elementwise grid `Criteria_ndim = self.density / lmax`. -/
def critGrid (a : NdArray) (lmax : ℚ) : NdArray :=
  ⟨a.shape, fun idx => a.data idx / lmax⟩

/-- The density value kept on a `SpatialPointProcess`, after the setter has
admitted it: a Python callable (one positional argument, a point, per the
source docstring), a numpy array, or a plain Python list/tuple of numbers
(accepted by the setter but without a `.shape` attribute). -/
inductive Density where
  | callable (f : List ℚ → ℚ)
  | ndarray (a : NdArray)
  | pylist (l : List ℚ)

/-- A raw Python value a caller may pass as the density. -/
inductive PyValue where
  | callable (f : List ℚ → ℚ)
  | ndarray (a : NdArray)
  | pylist (l : List ℚ)
  | other

/-- The `density` property setter: accepts callables, lists, tuples and
numpy arrays; raises `ValueError` otherwise. -/
def densitySetter : PyValue → Except PyErr Density
  | .callable f => .ok (.callable f)
  | .ndarray a => .ok (.ndarray a)
  | .pylist l => .ok (.pylist l)
  | .other => .error .valueError

/-- The abstracted `scipy.optimize.minimize`: given the objective, the
starting point `x0` and the bounds, it returns the point `max.x` found.
It is an arbitrary but fixed deterministic function. -/
def Optimizer : Type := (List ℚ → ℚ) → List ℚ → List (ℚ × ℚ) → List ℚ

/-- The per-dimension generators of the continuous candidate block:
`np.random.uniform(*bound, size=blocksize)` for each bound pair. -/
def contGens (bounds : List (ℚ × ℚ)) : List (ℚ → ℚ) :=
  bounds.map fun p => uniformDraw p.1 p.2

/-- The per-dimension generators of the discrete candidate block:
`np.random.randint(0, shape, size=blocksize)` for each axis length. -/
def discGens (shape : List ℕ) : List (ℚ → ℕ) :=
  shape.map fun k => fun u => randintDraw k u

/-- Continuous acceptance criterion: `self.density(Unthinned.T) / lmax`
applied per candidate point. -/
def contCrit (f : List ℚ → ℚ) (lmax : ℚ) : List ℚ → ℚ :=
  fun p => f p / lmax

/-- Discrete acceptance criterion: the per-candidate lookup
`Criteria_ndim[tuple(point)]` into the grid `self.density / lmax`. -/
def discCrit (a : NdArray) (lmax : ℚ) : List ℕ → ℚ :=
  fun p => (critGrid a lmax).data p

/-- The `lmax` of the continuous branch:
`max = scipy.optimize.minimize(lambda x: -density(x), x0=[mean(i) for i in bounds], bounds=...)`
followed by `lmax = density(max.x)` (with empty `density_kwargs`). -/
def contLmax (f : List ℚ → ℚ) (opt : Optimizer) (bounds : List (ℚ × ℚ)) : ℚ :=
  f (opt (fun x => -(f x)) (bounds.map fun p => (p.1 + p.2) / 2) bounds)

/-- The `lmax` of the discrete branch: `np.amax(self.density)`. -/
def discLmax (a : NdArray) : ℚ := a.amax

/-- The accepted candidates of one loop iteration, in generation order:
generate the block, transpose to candidates, draw the thresholds `U`, and
keep the columns with `U < Criteria`. -/
def blockAccepted {α : Type} (x0 : α) (gs : List (ℚ → α)) (crit : List α → ℚ)
    (b : ℕ) (r : Rng) (s : ℕ) : List (List α) :=
  acceptFilter (uRow r (s + gs.length * b) b)
    ((columnsD x0 (drawBlock gs r s b) b).map crit)
    (columnsD x0 (drawBlock gs r s b) b)

/-- The `while len(Thinned.T) < n` rejection loop.  `fuel` bounds the
number of iterations we simulate (`.more` = still looping).  Inside an
iteration: a 0-row block leaves `Unthinned` undefined (`NameError`); a
1-row block is one-dimensional and the source then assigns to the
read-only `Unthinned.T` attribute (`AttributeError`); otherwise the
accepted candidates are appended (`np.hstack`) and the loop continues,
having consumed `(d+1) * blocksize` draws.  On exit, the first `n`
accepted points are returned. -/
def thinLoop {α : Type} (x0 : α) (gs : List (ℚ → α)) (crit : List α → ℚ)
    (n b : ℕ) (r : Rng) : ℕ → ℕ → List (List α) → Res (List (List α))
  | 0, _, acc => if acc.length < n then .more else .ok (acc.take n)
  | fuel + 1, s, acc =>
    if acc.length < n then
      if gs.length = 0 then .exn .nameError
      else if gs.length = 1 then .exn .attributeError
      else
        thinLoop x0 gs crit n b r fuel (s + (gs.length + 1) * b)
          (acc ++ blockAccepted x0 gs crit b r s)
    else .ok (acc.take n)

/-- The accepted points of the first `j` loop iterations, concatenated in
acceptance order (block `0` starts at draw offset `s`, each block consumes
`(d+1) * blocksize` draws). -/
def acceptedStream {α : Type} (x0 : α) (gs : List (ℚ → α)) (crit : List α → ℚ)
    (b : ℕ) (r : Rng) (s : ℕ) : ℕ → List (List α)
  | 0 => []
  | j + 1 =>
    blockAccepted x0 gs crit b r s ++
      acceptedStream x0 gs crit b r (s + (gs.length + 1) * b) j

/-- What a successful sampling call returns: an `n × d` matrix of floats
(continuous) or of integer indices (discrete), one row per accepted
point. -/
inductive SampleOk where
  | contMat (m : List (List ℚ))
  | discMat (m : List (List ℕ))
  deriving DecidableEq, Repr

/-- Model of `_sample_spatial_point_process(n, bounds, algo, blocksize)`.

Control flow of the source, line by line:
* `if (n is not None) & (bounds is not ())`: both must be supplied
  (CPython interns the empty tuple, so the identity test is emptiness);
  otherwise the function falls through and returns Python `None`
  (`.ok none`).
* `if algo == 'thinning'`: any other value also falls through to `None`.
* Continuous branch: `lmax` from the optimizer; the call
  `self.density(max.x, *self.density_kwargs)` unpacks the kwargs dict's
  keys as extra positional arguments, a `TypeError` for the documented
  single-argument density unless the dict is empty (`kw = []`).
* Discrete branch: `np.amax` raises `ValueError` on a zero-size array.
* A plain Python list density reaches the loop (its `np.amax` works when
  nonempty) and then raises `AttributeError` on `self.density.shape` in
  the first iteration.
* If `n = 0` the loop body never runs and the final slice
  `Thinned[:, :n]` on the one-dimensional `np.array([])` raises
  `IndexError`. -/
def sppSample (density : Density) (kw : List String) (opt : Optimizer)
    (nOpt : Option ℕ) (bounds : List (ℚ × ℚ)) (algo : String) (b : ℕ)
    (r : Rng) (s fuel : ℕ) : Res (Option SampleOk) :=
  match nOpt, bounds with
  | some n, bd0 :: bdRest =>
    if algo = "thinning" then
      match density with
      | .callable f =>
        if kw = [] then
          if n = 0 then .exn .indexError
          else
            (thinLoop (0 : ℚ) (contGens (bd0 :: bdRest))
                (contCrit f (contLmax f opt (bd0 :: bdRest))) n b r fuel s []).map
              fun m => some (.contMat m)
        else .exn .typeError
      | .ndarray a =>
        if a.size = 0 then .exn .valueError
        else if n = 0 then .exn .indexError
        else
          (thinLoop (0 : ℕ) (discGens a.shape)
              (discCrit a (discLmax a)) n b r fuel s []).map
            fun m => some (.discMat m)
      | .pylist l =>
        if l = [] then .exn .valueError
        else if n = 0 then .exn .indexError
        else
          match fuel with
          | 0 => .more
          | _ + 1 => .exn .attributeError
    else .ok none
  | _, _ => .ok none

/-- Observable side effects of the public `sample` method. -/
inductive Event where
  | printA
  | printBounds
  | probeCall
  | probeSwallowed
  deriving DecidableEq, Repr

/-- The events of the diagnostic probe in `sample`: for a callable density
the source prints the bounds and calls
`self.density(*bounds, **self.density_kwargs)` inside a bare
`try/except: pass`; `probeOutcome` abstracts what that call does, and a
raised exception is recorded as swallowed. -/
def probeEvents (density : Density) (probeOutcome : Except PyErr ℚ) : List Event :=
  match density with
  | .callable _ =>
    [.printBounds, .probeCall] ++
      (match probeOutcome with
       | .error _ => [.probeSwallowed]
       | .ok _ => [])
  | _ => []

/-- The public `SpatialPointProcess.sample` method: prints `'a'`, runs the
diagnostic probe for callable densities (discarding its outcome), then
delegates to `_sample_spatial_point_process`.  Returns the result together
with the trace of side effects. -/
def sampleMethod (density : Density) (kw : List String) (opt : Optimizer)
    (nOpt : Option ℕ) (bounds : List (ℚ × ℚ)) (algo : String) (b : ℕ)
    (r : Rng) (s fuel : ℕ) (probeOutcome : Except PyErr ℚ) :
    Res (Option SampleOk) × List Event :=
  (sppSample density kw opt nOpt bounds algo b r s fuel,
   Event.printA :: probeEvents density probeOutcome)

/-- The number of rows of the candidate block a density generates
(`d`): the number of bound pairs for a callable, the array rank for a
numpy array, nothing for a plain list (which raises before generating). -/
def dimOf (density : Density) (bounds : List (ℚ × ℚ)) : ℕ :=
  match density with
  | .callable _ => bounds.length
  | .ndarray a => a.shape.length
  | .pylist _ => 0

/-- Validity of a sampling call, as in the claims: a callable density
needs at least two bound pairs, each with `low < high`; an array density
needs a nonempty array (and some supplied bounds); a plain list is not a
valid density for sampling. -/
def ValidCall (density : Density) (bounds : List (ℚ × ℚ)) : Prop :=
  match density with
  | .callable _ => 2 ≤ bounds.length ∧ ∀ p ∈ bounds, p.1 < p.2
  | .ndarray a => bounds ≠ [] ∧ 0 < a.size
  | .pylist _ => False

/-- Spec-side description of one block's acceptance step: walk the
candidates and their thresholds in generation order and keep exactly those
whose threshold is strictly below the candidate's acceptance ratio. -/
def specAccept {β : Type} (critf : β → ℚ) : List ℚ → List β → List β
  | u :: us, p :: ps =>
    if u < critf p then p :: specAccept critf us ps else specAccept critf us ps
  | _, _ => []

/-- Spec-side per-dimension midpoints of the bounds,
`x0 = [np.mean(i) for i in bounds]`. -/
def midpoints (bounds : List (ℚ × ℚ)) : List ℚ :=
  bounds.map fun p => (p.1 + p.2) / 2

/-- Value `v` is the maximum entry of the array: it occurs among the entries and
dominates them all. -/
def IsMaxEntry (a : NdArray) (v : ℚ) : Prop :=
  v ∈ a.entries ∧ ∀ q ∈ a.entries, q ≤ v

/-- What a successful sampling result must look like (the postcondition of
claim C1): a continuous result is an `n`-row matrix of points lying within
the supplied bounds, a discrete result is an `n`-row matrix of integer
index tuples within the array's per-axis ranges; in both cases the rows
are the first `n` accepted points, in acceptance order (a prefix of the
stream of per-block accepted candidates). -/
def sampleOutSpec (density : Density) (opt : Optimizer) (bounds : List (ℚ × ℚ))
    (n b : ℕ) (r : Rng) (s fuel : ℕ) : Option SampleOk → Prop
  | some (.contMat m) =>
    ∃ f, density = .callable f ∧
      m.length = n ∧
      (∀ row ∈ m, List.Forall₂ (fun bd x => bd.1 ≤ x ∧ x < bd.2) bounds row) ∧
      ∃ j ≤ fuel,
        m = (acceptedStream 0 (contGens bounds)
              (contCrit f (contLmax f opt bounds)) b r s j).take n
  | some (.discMat m) =>
    ∃ a, density = .ndarray a ∧
      m.length = n ∧
      (∀ row ∈ m, List.Forall₂ (fun k i => i < k) a.shape row) ∧
      ∃ j ≤ fuel,
        m = (acceptedStream 0 (discGens a.shape)
              (discCrit a (discLmax a)) b r s j).take n
  | none => False

/-! ### Helper lemmas: draws, rows, columns -/

theorem uniformDraw_mem (low high u : ℚ) (hlh : low < high) (h0 : 0 ≤ u) (h1 : u < 1) :
    low ≤ uniformDraw low high u ∧ uniformDraw low high u < high := by
  unfold uniformDraw
  constructor
  · nlinarith
  · nlinarith

theorem randintDraw_lt (k : ℕ) (hk : 0 < k) (u : ℚ) (h0 : 0 ≤ u) (h1 : u < 1) :
    randintDraw k u < k := by
  unfold randintDraw
  have h : ⌊(k : ℚ) * u⌋ < (k : ℤ) := by
    apply Int.floor_lt.2
    push_cast
    have hk' : (0 : ℚ) < (k : ℚ) := by exact_mod_cast hk
    nlinarith
  omega

theorem drawRow_getD {α : Type} (g : ℚ → α) (r : Rng) (s b j : ℕ) (x0 : α) (hj : j < b) :
    (drawRow g r s b).getD j x0 = g (r (s + j)) := by
  unfold drawRow
  rw [List.getD_eq_getElem?_getD]
  simp [List.getElem?_map, List.getElem?_range, hj]

theorem mem_columnsD {α : Type} (x0 : α) (m : List (List α)) (b : ℕ) (p : List α)
    (h : p ∈ columnsD x0 m b) :
    ∃ j, j < b ∧ p = m.map fun row => row.getD j x0 := by
  unfold columnsD at h
  rw [List.mem_map] at h
  obtain ⟨j, hj, hp⟩ := h
  exact ⟨j, List.mem_range.1 hj, hp.symm⟩

theorem mem_of_mem_acceptFilter {α : Type} (u c : List ℚ) (cand : List α) (x : α)
    (h : x ∈ acceptFilter u c cand) : x ∈ cand := by
  unfold acceptFilter at h
  rw [List.mem_filterMap] at h
  obtain ⟨a, ha, hx⟩ := h
  by_cases hc : a.2.1 < a.2.2
  · rw [if_pos hc] at hx
    cases hx
    exact (List.of_mem_zip ha).1
  · rw [if_neg hc] at hx
    cases hx

theorem acceptFilter_map_eq {β : Type} (critf : β → ℚ) :
    ∀ (cand : List β) (u : List ℚ), u.length = cand.length →
      acceptFilter u (cand.map critf) cand = specAccept critf u cand := by
  intro cand
  induction cand with
  | nil =>
    intro u _
    cases u <;> rfl
  | cons p ps ih =>
    intro u h
    cases u with
    | nil => simp at h
    | cons x xs =>
      simp only [List.length_cons] at h
      simp only [acceptFilter, specAccept, List.map_cons, List.zip_cons_cons,
        List.filterMap_cons]
      by_cases hc : x < critf p
      · rw [if_pos hc, if_pos hc]
        rw [← acceptFilter, ih xs (by omega)]
      · rw [if_neg hc, if_neg hc]
        rw [← acceptFilter, ih xs (by omega)]

theorem acceptFilter_eq_nil {α : Type} (u c : List ℚ) (cand : List α)
    (hu : ∀ x ∈ u, 0 ≤ x) (hc : ∀ x ∈ c, x ≤ 0) : acceptFilter u c cand = [] := by
  unfold acceptFilter
  apply List.filterMap_eq_nil_iff.2
  intro x hx
  obtain ⟨-, h2⟩ := List.of_mem_zip hx
  obtain ⟨hxu, hxc⟩ := List.of_mem_zip h2
  rw [if_neg]
  exact not_lt.2 (le_trans (hc _ hxc) (hu _ hxu))

/-! ### Candidate columns lie in the sampling region -/

theorem contColumn_forall₂ (r : Rng) (hr : RngOk r) (b j : ℕ) (hj : j < b) (x0 : ℚ) :
    ∀ (bounds : List (ℚ × ℚ)) (s : ℕ), (∀ p ∈ bounds, p.1 < p.2) →
      List.Forall₂ (fun bd x => bd.1 ≤ x ∧ x < bd.2) bounds
        ((drawBlock (contGens bounds) r s b).map fun row => row.getD j x0) := by
  intro bounds
  induction bounds with
  | nil =>
    intro s _
    exact List.Forall₂.nil
  | cons bd rest ih =>
    intro s hb
    simp only [contGens, List.map_cons, drawBlock]
    refine List.Forall₂.cons ?_ ?_
    · rw [drawRow_getD _ _ _ _ _ _ hj]
      exact uniformDraw_mem _ _ _ (hb bd (List.mem_cons_self _ _)) (hr _).1 (hr _).2
    · exact ih (s + b) fun p hp => hb p (List.mem_cons_of_mem _ hp)

theorem discColumn_forall₂ (r : Rng) (hr : RngOk r) (b j : ℕ) (hj : j < b) (x0 : ℕ) :
    ∀ (shape : List ℕ) (s : ℕ), (∀ k ∈ shape, 0 < k) →
      List.Forall₂ (fun k i => i < k) shape
        ((drawBlock (discGens shape) r s b).map fun row => row.getD j x0) := by
  intro shape
  induction shape with
  | nil =>
    intro s _
    exact List.Forall₂.nil
  | cons k rest ih =>
    intro s hk
    simp only [discGens, List.map_cons, drawBlock]
    refine List.Forall₂.cons ?_ ?_
    · rw [drawRow_getD _ _ _ _ _ _ hj]
      exact randintDraw_lt _ (hk k (List.mem_cons_self _ _)) _ (hr _).1 (hr _).2
    · exact ih (s + b) fun k' hk' => hk k' (List.mem_cons_of_mem _ hk')

/-! ### Blocks, accepted streams and the loop -/

theorem mem_of_mem_blockAccepted {α : Type} (x0 : α) (gs : List (ℚ → α))
    (crit : List α → ℚ) (b : ℕ) (r : Rng) (s : ℕ) (p : List α)
    (h : p ∈ blockAccepted x0 gs crit b r s) :
    p ∈ columnsD x0 (drawBlock gs r s b) b := by
  unfold blockAccepted at h
  exact mem_of_mem_acceptFilter _ _ _ _ h

theorem mem_acceptedStream {α : Type} (x0 : α) (gs : List (ℚ → α))
    (crit : List α → ℚ) (b : ℕ) (r : Rng) :
    ∀ (j s : ℕ) (p : List α), p ∈ acceptedStream x0 gs crit b r s j →
      ∃ t, p ∈ blockAccepted x0 gs crit b r t := by
  intro j
  induction j with
  | zero =>
    intro s p hp
    simp [acceptedStream] at hp
  | succ j ih =>
    intro s p hp
    rw [acceptedStream, List.mem_append] at hp
    rcases hp with hp | hp
    · exact ⟨s, hp⟩
    · exact ih _ _ hp

theorem blockAccepted_eq_nil {α : Type} (x0 : α) (gs : List (ℚ → α))
    (crit : List α → ℚ) (b : ℕ) (r : Rng) (s : ℕ) (hr : RngOk r)
    (hcrit : ∀ p, crit p ≤ 0) : blockAccepted x0 gs crit b r s = [] := by
  unfold blockAccepted
  apply acceptFilter_eq_nil
  · intro x hx
    unfold uRow at hx
    rw [List.mem_map] at hx
    obtain ⟨i, -, rfl⟩ := hx
    exact (hr _).1
  · intro x hx
    rw [List.mem_map] at hx
    obtain ⟨p, -, rfl⟩ := hx
    exact hcrit p

theorem thinLoop_stuck {α : Type} (x0 : α) (gs : List (ℚ → α)) (crit : List α → ℚ)
    (n b : ℕ) (r : Rng) (hn : 0 < n) (hgs : 2 ≤ gs.length)
    (hnil : ∀ s, blockAccepted x0 gs crit b r s = []) :
    ∀ (fuel s : ℕ), thinLoop x0 gs crit n b r fuel s [] = .more := by
  intro fuel
  induction fuel with
  | zero =>
    intro s
    simp [thinLoop, hn]
  | succ fuel ih =>
    intro s
    simp only [thinLoop]
    rw [if_pos (by simpa using hn), if_neg (by omega), if_neg (by omega), hnil]
    simpa using ih _

theorem thinLoop_ok {α : Type} (x0 : α) (gs : List (ℚ → α)) (crit : List α → ℚ)
    (n b : ℕ) (r : Rng) :
    ∀ (fuel s : ℕ) (acc m : List (List α)),
      thinLoop x0 gs crit n b r fuel s acc = .ok m →
      ∃ j, j ≤ fuel ∧ n ≤ (acc ++ acceptedStream x0 gs crit b r s j).length ∧
        m = (acc ++ acceptedStream x0 gs crit b r s j).take n := by
  intro fuel
  induction fuel with
  | zero =>
    intro s acc m h
    unfold thinLoop at h
    split at h
    · cases h
    · cases h
      refine ⟨0, le_refl 0, ?_, ?_⟩
      · simp only [acceptedStream, List.append_nil]
        omega
      · simp [acceptedStream]
  | succ fuel ih =>
    intro s acc m h
    rw [thinLoop] at h
    split at h
    case isTrue hlt =>
      split at h
      · cases h
      · split at h
        · cases h
        · obtain ⟨j, hj, hlen, hm⟩ := ih _ _ _ h
          refine ⟨j + 1, Nat.succ_le_succ hj, ?_, ?_⟩
          · rw [acceptedStream, ← List.append_assoc]
            exact hlen
          · rw [acceptedStream, ← List.append_assoc]
            exact hm
    case isFalse hge =>
      cases h
      refine ⟨0, Nat.zero_le _, ?_, ?_⟩
      · simp only [acceptedStream, List.append_nil]
        omega
      · simp [acceptedStream]

theorem Res.map_eq_ok {α β : Type} (g : α → β) (x : Res α) (v : β)
    (h : x.map g = .ok v) : ∃ a, x = .ok a ∧ v = g a := by
  cases x with
  | ok a => exact ⟨a, rfl, by cases h; rfl⟩
  | exn e => cases h
  | more => cases h

/-! ### The output depends only on the consumed prefix of the random stream -/

theorem drawRow_congr {α : Type} (g : ℚ → α) (r₁ r₂ : Rng) (s b : ℕ)
    (h : ∀ i, i < b → r₁ (s + i) = r₂ (s + i)) :
    drawRow g r₁ s b = drawRow g r₂ s b := by
  unfold drawRow
  exact List.map_congr_left fun j hj => by rw [h j (List.mem_range.1 hj)]

theorem uRow_congr (r₁ r₂ : Rng) (s b : ℕ)
    (h : ∀ i, i < b → r₁ (s + i) = r₂ (s + i)) :
    uRow r₁ s b = uRow r₂ s b := by
  unfold uRow
  exact List.map_congr_left fun j hj => h j (List.mem_range.1 hj)

theorem drawBlock_congr {α : Type} (r₁ r₂ : Rng) (b : ℕ) :
    ∀ (gs : List (ℚ → α)) (s : ℕ),
      (∀ i, i < gs.length * b → r₁ (s + i) = r₂ (s + i)) →
      drawBlock gs r₁ s b = drawBlock gs r₂ s b := by
  intro gs
  induction gs with
  | nil => intro s _; rfl
  | cons g gs ih =>
    intro s h
    simp only [List.length_cons, Nat.succ_mul] at h
    have h1 : drawRow g r₁ s b = drawRow g r₂ s b :=
      drawRow_congr g r₁ r₂ s b fun i hi => h i (by omega)
    have h2 : drawBlock gs r₁ (s + b) b = drawBlock gs r₂ (s + b) b := by
      apply ih
      intro i hi
      have := h (b + i) (by omega)
      rwa [← Nat.add_assoc] at this
    simp only [drawBlock, h1, h2]

theorem blockAccepted_congr {α : Type} (x0 : α) (gs : List (ℚ → α))
    (crit : List α → ℚ) (b : ℕ) (r₁ r₂ : Rng) (s : ℕ)
    (h : ∀ i, i < (gs.length + 1) * b → r₁ (s + i) = r₂ (s + i)) :
    blockAccepted x0 gs crit b r₁ s = blockAccepted x0 gs crit b r₂ s := by
  have hK : (gs.length + 1) * b = gs.length * b + b := Nat.succ_mul _ _
  have h1 : drawBlock gs r₁ s b = drawBlock gs r₂ s b :=
    drawBlock_congr r₁ r₂ b gs s fun i hi => h i (by omega)
  have h2 : uRow r₁ (s + gs.length * b) b = uRow r₂ (s + gs.length * b) b := by
    apply uRow_congr
    intro i hi
    have := h (gs.length * b + i) (by omega)
    rwa [← Nat.add_assoc] at this
  unfold blockAccepted
  rw [h1, h2]

theorem thinLoop_congr {α : Type} (x0 : α) (gs : List (ℚ → α)) (crit : List α → ℚ)
    (n b : ℕ) (r₁ r₂ : Rng) :
    ∀ (fuel s : ℕ) (acc : List (List α)),
      (∀ i, i < fuel * ((gs.length + 1) * b) → r₁ (s + i) = r₂ (s + i)) →
      thinLoop x0 gs crit n b r₁ fuel s acc = thinLoop x0 gs crit n b r₂ fuel s acc := by
  intro fuel
  induction fuel with
  | zero => intro s acc _; rfl
  | succ fuel ih =>
    intro s acc h
    have hK : (fuel + 1) * ((gs.length + 1) * b)
        = fuel * ((gs.length + 1) * b) + (gs.length + 1) * b := Nat.succ_mul _ _
    simp only [thinLoop]
    split
    · split
      · rfl
      · split
        · rfl
        · rw [blockAccepted_congr x0 gs crit b r₁ r₂ s fun i hi => h i (by omega)]
          apply ih
          intro i hi
          have := h ((gs.length + 1) * b + i) (by omega)
          rwa [← Nat.add_assoc] at this
    · rfl

theorem sppSample_congr (density : Density) (kw : List String) (opt : Optimizer)
    (nOpt : Option ℕ) (bounds : List (ℚ × ℚ)) (algo : String) (b : ℕ)
    (r₁ r₂ : Rng) (s fuel : ℕ)
    (h : ∀ i, i < fuel * ((dimOf density bounds + 1) * b) → r₁ (s + i) = r₂ (s + i)) :
    sppSample density kw opt nOpt bounds algo b r₁ s fuel
      = sppSample density kw opt nOpt bounds algo b r₂ s fuel := by
  cases density with
  | pylist l => rfl
  | callable f =>
    cases nOpt with
    | none => rfl
    | some n =>
      cases bounds with
      | nil => rfl
      | cons bd0 bdRest =>
        simp only [sppSample]
        split
        · split
          · split
            · rfl
            · rw [thinLoop_congr (0 : ℚ) (contGens (bd0 :: bdRest))
                (contCrit f (contLmax f opt (bd0 :: bdRest))) n b r₁ r₂ fuel s []
                fun i hi => h i (by simpa [contGens, dimOf] using hi)]
          · rfl
        · rfl
  | ndarray a =>
    cases nOpt with
    | none => rfl
    | some n =>
      cases bounds with
      | nil => rfl
      | cons bd0 bdRest =>
        simp only [sppSample]
        split
        · split
          · rfl
          · split
            · rfl
            · rw [thinLoop_congr (0 : ℕ) (discGens a.shape)
                (discCrit a (discLmax a)) n b r₁ r₂ fuel s []
                fun i hi => h i (by simpa [discGens, dimOf] using hi)]
        · rfl

/-! ### `np.amax` is the exact maximum entry -/

theorem allIdx_length : ∀ shape : List ℕ, (allIdx shape).length = shape.prod := by
  intro shape
  induction shape with
  | nil => rfl
  | cons k ks ih =>
    simp only [allIdx, List.length_flatMap, List.map_map, List.prod_cons]
    have : ((List.range k).map fun i => ((allIdx ks).map fun t => i :: t).length).sum
        = ((List.range k).map fun _ => (allIdx ks).length).sum := by
      congr 1
      exact List.map_congr_left fun i _ => List.length_map _ _
    simp only [Function.comp_def] at *
    rw [this]
    rw [List.map_const', List.sum_replicate, List.length_range, smul_eq_mul, ih]

theorem le_foldl_max : ∀ (xs : List ℚ) (x : ℚ), x ≤ xs.foldl max x := by
  intro xs
  induction xs with
  | nil => intro x; simp
  | cons y ys ih =>
    intro x
    simp only [List.foldl_cons]
    exact le_trans (le_max_left x y) (ih (max x y))

theorem mem_le_foldl_max : ∀ (xs : List ℚ) (x q : ℚ), q ∈ xs → q ≤ xs.foldl max x := by
  intro xs
  induction xs with
  | nil => intro x q h; cases h
  | cons y ys ih =>
    intro x q h
    simp only [List.foldl_cons]
    rcases List.mem_cons.1 h with h | h
    · subst h
      exact le_trans (le_max_right x q) (le_foldl_max ys _)
    · exact ih _ _ h

theorem foldl_max_mem : ∀ (xs : List ℚ) (x : ℚ), xs.foldl max x = x ∨ xs.foldl max x ∈ xs := by
  intro xs
  induction xs with
  | nil => intro x; left; rfl
  | cons y ys ih =>
    intro x
    simp only [List.foldl_cons]
    rcases ih (max x y) with h | h
    · rcases max_choice x y with hm | hm
      · left; rw [h, hm]
      · right; rw [h, hm]; exact List.mem_cons_self _ _
    · right; exact List.mem_cons_of_mem _ h

theorem entries_length (a : NdArray) : a.entries.length = a.size := by
  unfold NdArray.entries NdArray.size
  rw [List.length_map, allIdx_length]

theorem isMaxEntry_amax (a : NdArray) (ha : 0 < a.size) : IsMaxEntry a a.amax := by
  have hlen := entries_length a
  cases hE : a.entries with
  | nil =>
    rw [hE] at hlen
    simp at hlen
    omega
  | cons e es =>
    have hamax : a.amax = es.foldl max e := by
      unfold NdArray.amax
      rw [hE]
    constructor
    · rw [hamax, hE]
      rcases foldl_max_mem es e with h | h
      · rw [h]; exact List.mem_cons_self _ _
      · exact List.mem_cons_of_mem _ h
    · intro q hq
      rw [hE] at hq
      rw [hamax]
      rcases List.mem_cons.1 hq with h | h
      · subst h; exact le_foldl_max _ _
      · exact mem_le_foldl_max _ _ _ h

/-! ### Claims -/

/-- C1: for every valid sampling call (callable density with d ≥ 2 bound
pairs, or a nonempty weight array; `n` and `bounds` supplied, algorithm
`thinning`, empty kwargs, positive `n` and blocksize) on which the
rejection loop terminates with a normal return, the returned matrix has
exactly `n` rows, each row one accepted point's `d` coordinates in
acceptance order (a prefix of the concatenated per-block accepted
candidates), every continuous point lying within the supplied bounds and
every discrete point being an integer index tuple within the array's
per-axis index ranges. -/
theorem sample_returns_n_points_in_region
    (density : Density) (opt : Optimizer) (bounds : List (ℚ × ℚ)) (n b : ℕ)
    (r : Rng) (s fuel : ℕ) (out : Option SampleOk)
    (hv : ValidCall density bounds) (hr : RngOk r) (hn : 0 < n) (hb : 0 < b)
    (h : sppSample density [] opt (some n) bounds "thinning" b r s fuel = .ok out) :
    sampleOutSpec density opt bounds n b r s fuel out := by
  cases density with
  | pylist l => exact absurd hv (by simp [ValidCall])
  | callable f =>
    obtain ⟨hd2, hlohi⟩ := hv
    cases bounds with
    | nil => simp at hd2
    | cons bd0 bdRest =>
      simp only [sppSample] at h
      rw [if_pos trivial, if_pos trivial, if_neg (by omega)] at h
      obtain ⟨m, hm, hout⟩ := Res.map_eq_ok _ _ _ h
      obtain ⟨j, hj, hlen, hmeq⟩ := thinLoop_ok _ _ _ _ _ _ _ _ _ _ hm
      rw [List.nil_append] at hlen hmeq
      subst hout
      refine ⟨f, rfl, ?_, ?_, j, hj, hmeq⟩
      · rw [hmeq, List.length_take]
        omega
      · intro row hrow
        rw [hmeq] at hrow
        obtain ⟨t, ht⟩ := mem_acceptedStream _ _ _ _ _ _ _ _ (List.mem_of_mem_take hrow)
        obtain ⟨jj, hjj, rfl⟩ :=
          mem_columnsD _ _ _ _ (mem_of_mem_blockAccepted _ _ _ _ _ _ _ ht)
        exact contColumn_forall₂ r hr b jj hjj 0 (bd0 :: bdRest) t hlohi
  | ndarray a =>
    obtain ⟨hbne, hsize⟩ := hv
    cases bounds with
    | nil => exact absurd rfl hbne
    | cons bd0 bdRest =>
      simp only [sppSample] at h
      rw [if_pos trivial, if_neg (by omega), if_neg (by omega)] at h
      obtain ⟨m, hm, hout⟩ := Res.map_eq_ok _ _ _ h
      obtain ⟨j, hj, hlen, hmeq⟩ := thinLoop_ok _ _ _ _ _ _ _ _ _ _ hm
      rw [List.nil_append] at hlen hmeq
      subst hout
      have hpos : ∀ k ∈ a.shape, 0 < k := by
        intro k hk
        rcases Nat.eq_zero_or_pos k with h0 | h0
        · exfalso
          have : a.size = 0 := by
            unfold NdArray.size
            exact List.prod_eq_zero (h0 ▸ hk)
          omega
        · exact h0
      refine ⟨a, rfl, ?_, ?_, j, hj, hmeq⟩
      · rw [hmeq, List.length_take]
        omega
      · intro row hrow
        rw [hmeq] at hrow
        obtain ⟨t, ht⟩ := mem_acceptedStream _ _ _ _ _ _ _ _ (List.mem_of_mem_take hrow)
        obtain ⟨jj, hjj, rfl⟩ :=
          mem_columnsD _ _ _ _ (mem_of_mem_blockAccepted _ _ _ _ _ _ _ ht)
        exact discColumn_forall₂ r hr b jj hjj 0 a.shape t hpos

/-- C1 witness: a concrete terminating call with the uniform density `1`
over `[(0,1), (0,1)]`, `n = blocksize = fuel = 1` and the constant
stream `1/2`. -/
theorem sample_returns_n_points_in_region_w :
    sampleOutSpec (.callable fun _ => 1) (fun _ x0 _ => x0) [(0, 1), (0, 1)] 1 1
      (fun _ => 1/2) 0 1 (some (.contMat [[1/2, 1/2]])) :=
  sample_returns_n_points_in_region (.callable fun _ => 1) (fun _ x0 _ => x0)
    [(0, 1), (0, 1)] 1 1 (fun _ => 1/2) 0 1 (some (.contMat [[1/2, 1/2]]))
    ⟨by norm_num, by norm_num⟩ (fun i => ⟨by norm_num, by norm_num⟩)
    one_pos one_pos (by
      simp only [sppSample]
      norm_num [thinLoop, blockAccepted, acceptFilter, columnsD, drawBlock, drawRow,
        uRow, contGens, contCrit, contLmax, uniformDraw, List.range_succ, Res.map]
      norm_num [List.filterMap_cons, Res.map]
      rw [if_neg (by simp)])

/-- C2: in every rejection-loop iteration the accepted candidates of the
block are exactly those whose independently drawn threshold is strictly
less than their acceptance ratio, kept in generation order (the
`specAccept` walk of the candidates), the block's accepted candidates are
appended to the accumulator before the loop continues, and the discrete
criterion is the lookup of the weight-array-over-lmax grid at the
candidate's integer index tuple. -/
theorem acceptance_strictly_below_criterion {α : Type} (x0 : α)
    (gs : List (ℚ → α)) (crit : List α → ℚ) (n b fuel s : ℕ) (r : Rng)
    (acc : List (List α)) (a : NdArray) (lmax : ℚ) (p : List ℕ)
    (hlt : acc.length < n) (hgs : 2 ≤ gs.length) :
    blockAccepted x0 gs crit b r s
      = specAccept crit (uRow r (s + gs.length * b) b)
          (columnsD x0 (drawBlock gs r s b) b)
    ∧ thinLoop x0 gs crit n b r (fuel + 1) s acc
      = thinLoop x0 gs crit n b r fuel (s + (gs.length + 1) * b)
          (acc ++ blockAccepted x0 gs crit b r s)
    ∧ discCrit a lmax p = a.data p / lmax := by
  refine ⟨?_, ?_, rfl⟩
  · unfold blockAccepted
    apply acceptFilter_map_eq
    simp [uRow, columnsD]
  · simp only [thinLoop]
    rw [if_pos hlt, if_neg (by omega), if_neg (by omega)]

/-- C2 witness: the acceptance rule instantiated at a concrete
two-dimensional block. -/
theorem acceptance_strictly_below_criterion_w :
    blockAccepted (0 : ℚ) [fun u => u, fun u => u] (fun _ => 1) 1 (fun _ => 1/2) 0
      = specAccept (fun _ => 1) (uRow (fun _ => 1/2) 2 1)
          (columnsD 0 (drawBlock [fun u => u, fun u => u] (fun _ => 1/2) 0 1) 1)
    ∧ thinLoop (0 : ℚ) [fun u => u, fun u => u] (fun _ => 1) 1 1 (fun _ => 1/2) 1 0 []
      = thinLoop (0 : ℚ) [fun u => u, fun u => u] (fun _ => 1) 1 1 (fun _ => 1/2) 0 3
          ([] ++ blockAccepted (0 : ℚ) [fun u => u, fun u => u] (fun _ => 1) 1 (fun _ => 1/2) 0)
    ∧ discCrit ⟨[2], fun _ => 5⟩ 2 [0] = NdArray.data ⟨[2], fun _ => 5⟩ [0] / 2 :=
  acceptance_strictly_below_criterion (0 : ℚ) [fun u => u, fun u => u]
    (fun _ => 1) 1 1 0 0 (fun _ => 1/2) [] ⟨[2], fun _ => 5⟩ 2 [0]
    (by norm_num) (by norm_num)

/-- C3: `lmax` is computed from the density alone before the loop: for a
callable density it is the density's value at the point found by the
optimizer started at the per-dimension midpoints of the bounds on the
negated density; for a discrete weight array it exactly equals the
maximum entry of the array. -/
theorem lmax_formula (f : List ℚ → ℚ) (opt : Optimizer) (bounds : List (ℚ × ℚ))
    (a : NdArray) (ha : 0 < a.size) :
    contLmax f opt bounds = f (opt (fun x => -(f x)) (midpoints bounds) bounds)
    ∧ discLmax a = a.amax ∧ IsMaxEntry a (discLmax a) :=
  ⟨rfl, rfl, isMaxEntry_amax a ha⟩

/-- C3 witness: the `lmax` characterisation at a concrete density and a
concrete one-axis array. -/
theorem lmax_formula_w :
    contLmax (fun _ : List ℚ => 3) (fun _ x0 _ => x0 : Optimizer) [(0, 2)]
      = (fun _ : List ℚ => (3 : ℚ)) ((fun _ x0 _ => x0 : Optimizer)
          (fun x => -((fun _ : List ℚ => (3 : ℚ)) x)) (midpoints [(0, 2)]) [(0, 2)])
    ∧ discLmax ⟨[2], fun _ => 5⟩ = NdArray.amax ⟨[2], fun _ => 5⟩
    ∧ IsMaxEntry ⟨[2], fun _ => 5⟩ (discLmax ⟨[2], fun _ => 5⟩) :=
  lmax_formula (fun _ => 3) (fun _ x0 _ => x0) [(0, 2)] ⟨[2], fun _ => 5⟩ (by decide)

/-- C4: at the failing input — the all-zero 2×2 weight array, `n = 1`,
bounds `((0,1),(0,1))`, blocksize 3 — the source computes `lmax = 0`,
raises no error of any kind before or in the rejection loop (the source
has no `DegenerateDensity`), and for every simulated number of loop
iterations is still looping: every criterion is `0/0` and no candidate is
ever accepted, so the call never returns. -/
theorem zero_density_loops_forever (opt : Optimizer) (r : Rng) (hr : RngOk r)
    (s fuel : ℕ) :
    sppSample (.ndarray ⟨[2, 2], fun _ => 0⟩) [] opt (some 1) [(0, 1), (0, 1)]
      "thinning" 3 r s fuel = .more := by
  simp only [sppSample]
  rw [if_pos trivial, if_neg (by decide), if_neg (by decide)]
  rw [thinLoop_stuck _ _ _ _ _ _ one_pos (by decide) ?hnil fuel s]
  · rfl
  case hnil =>
    intro t
    apply blockAccepted_eq_nil _ _ _ _ _ _ hr
    intro p
    simp [discCrit, critGrid]

/-- C4 witness: the non-termination at a concrete random stream and seven
simulated loop iterations. -/
theorem zero_density_loops_forever_w :
    sppSample (.ndarray ⟨[2, 2], fun _ => 0⟩) [] (fun _ x0 _ => x0) (some 1)
      [(0, 1), (0, 1)] "thinning" 3 (fun _ => 1/2) 0 7 = .more :=
  zero_density_loops_forever (fun _ x0 _ => x0) (fun _ => 1/2)
    (fun i => ⟨by norm_num, by norm_num⟩) 0 7

/-- C5: the source's rejection loop has no iteration budget: on a
degenerate input (all-zero weight array) it is, for every simulated block
count, any positive target `n` and any blocksize, still running — it
never terminates, and in particular never fails with any explicit
`SamplingBudgetExceeded`-style error (no such error exists in the
source). -/
theorem rejection_loop_has_no_budget (r : Rng) (hr : RngOk r) (n b fuel s : ℕ)
    (hn : 0 < n) :
    thinLoop (0 : ℕ) (discGens [2, 2])
      (discCrit ⟨[2, 2], fun _ => 0⟩ (discLmax ⟨[2, 2], fun _ => 0⟩)) n b r fuel s []
      = .more := by
  apply thinLoop_stuck _ _ _ _ _ _ hn (by decide)
  intro t
  apply blockAccepted_eq_nil _ _ _ _ _ _ hr
  intro p
  simp [discCrit, critGrid]

/-- C5 witness: the budget-free loop at a concrete stream, `n = 2`,
blocksize 3 and four simulated blocks. -/
theorem rejection_loop_has_no_budget_w :
    thinLoop (0 : ℕ) (discGens [2, 2])
      (discCrit ⟨[2, 2], fun _ => 0⟩ (discLmax ⟨[2, 2], fun _ => 0⟩)) 2 3
      (fun _ => 1/2) 4 0 [] = .more :=
  rejection_loop_has_no_budget (fun _ => 1/2)
    (fun i => ⟨by norm_num, by norm_num⟩) 2 3 4 0 (by norm_num)

/-- C6: `sample` with `n` missing, with `bounds` missing, or with an
unrecognized `algo` silently returns Python `None` (`.ok none`): no
`MissingArguments` or `UnsupportedAlgorithm` error is raised anywhere. -/
theorem sample_silently_returns_none :
    (sampleMethod (.callable fun _ => 1) [] (fun _ x0 _ => x0) none [(0, 1)]
        "thinning" 1000 (fun _ => 1/2) 0 9 (.ok 0)).1 = .ok none
    ∧ (sampleMethod (.callable fun _ => 1) [] (fun _ x0 _ => x0) (some 5) []
        "thinning" 1000 (fun _ => 1/2) 0 9 (.ok 0)).1 = .ok none
    ∧ (sampleMethod (.callable fun _ => 1) [] (fun _ x0 _ => x0) (some 5)
        [(0, 1), (2, 3)] "foo" 1000 (fun _ => 1/2) 0 9 (.ok 0)).1 = .ok none :=
  ⟨rfl, rfl, by simp [sampleMethod, sppSample]⟩

/-- C7: for every callable density the public `sample` makes the
speculative diagnostic probe call into the density, swallows any
exception the probe raises (the returned value is independent of the
probe's outcome), and prints as a side effect — contradicting the
required propagation policy. -/
theorem sample_probes_density_and_swallows_errors (f : List ℚ → ℚ)
    (kw : List String) (opt : Optimizer) (nOpt : Option ℕ)
    (bounds : List (ℚ × ℚ)) (algo : String) (b : ℕ) (r : Rng) (s fuel : ℕ)
    (e : PyErr) (v : ℚ) :
    Event.probeCall ∈ (sampleMethod (.callable f) kw opt nOpt bounds algo b r s fuel (.error e)).2
    ∧ Event.probeSwallowed ∈ (sampleMethod (.callable f) kw opt nOpt bounds algo b r s fuel (.error e)).2
    ∧ Event.printA ∈ (sampleMethod (.callable f) kw opt nOpt bounds algo b r s fuel (.error e)).2
    ∧ (sampleMethod (.callable f) kw opt nOpt bounds algo b r s fuel (.error e)).1
        = (sampleMethod (.callable f) kw opt nOpt bounds algo b r s fuel (.ok v)).1 := by
  refine ⟨?_, ?_, ?_, rfl⟩ <;> simp [sampleMethod, probeEvents]

/-- C8: a one-dimensional sampling call — a callable density with exactly
one bound pair, or a one-dimensional weight array — generates a
one-dimensional first candidate block, and the reshape step's assignment
to the read-only transpose attribute raises `AttributeError` in the first
loop iteration; the call never returns any points. -/
theorem one_dimensional_call_attribute_error
    (f : List ℚ → ℚ) (bd : ℚ × ℚ) (opt : Optimizer) (a : NdArray) (k : ℕ)
    (bounds2 : List (ℚ × ℚ)) (n b : ℕ) (r : Rng) (s fuel : ℕ)
    (hshape : a.shape = [k]) (hk : 0 < k) (hb2 : bounds2 ≠ [])
    (hn : 0 < n) (hf : 0 < fuel) :
    sppSample (.callable f) [] opt (some n) [bd] "thinning" b r s fuel
      = .exn .attributeError
    ∧ sppSample (.ndarray a) [] opt (some n) bounds2 "thinning" b r s fuel
      = .exn .attributeError := by
  obtain ⟨fuel', rfl⟩ : ∃ fl, fuel = fl + 1 := ⟨fuel - 1, by omega⟩
  constructor
  · simp only [sppSample]
    rw [if_pos trivial, if_pos trivial, if_neg (by omega)]
    simp only [thinLoop]
    rw [if_pos (by simpa using hn), if_neg (by simp [contGens]),
      if_pos (by simp [contGens])]
    rfl
  · cases bounds2 with
    | nil => exact absurd rfl hb2
    | cons c cs =>
      have hsz : ¬a.size = 0 := by
        unfold NdArray.size
        rw [hshape]
        simpa using Nat.pos_iff_ne_zero.1 hk
      simp only [sppSample]
      rw [if_pos trivial, if_neg hsz, if_neg (by omega)]
      simp only [thinLoop]
      rw [if_pos (by simpa using hn), if_neg (by simp [discGens, hshape]),
        if_pos (by simp [discGens, hshape])]
      rfl

/-- C8 witness: the `AttributeError` at a concrete one-bound-pair call
and a concrete one-dimensional array of length 4. -/
theorem one_dimensional_call_attribute_error_w :
    sppSample (.callable fun _ => 1) [] (fun _ x0 _ => x0) (some 1) [(0, 1)]
      "thinning" 2 (fun _ => 1/2) 0 3 = .exn .attributeError
    ∧ sppSample (.ndarray ⟨[4], fun _ => 1⟩) [] (fun _ x0 _ => x0) (some 1)
      [(0, 1)] "thinning" 2 (fun _ => 1/2) 0 3 = .exn .attributeError :=
  one_dimensional_call_attribute_error (fun _ => 1) (0, 1) (fun _ x0 _ => x0)
    ⟨[4], fun _ => 1⟩ 4 [(0, 1)] 1 2 (fun _ => 1/2) 0 3 rfl (by norm_num)
    (by simp) (by norm_num) (by norm_num)

/-- C9: sampling is a deterministic function of the density, kwargs,
bounds, `n`, algorithm, blocksize, probe outcome and the random source:
two calls whose random streams agree on every draw the call can consume
(at most `fuel * (d+1) * blocksize` values from the start offset) return
identical results and identical side-effect traces. -/
theorem sample_deterministic (density : Density) (kw : List String)
    (opt : Optimizer) (nOpt : Option ℕ) (bounds : List (ℚ × ℚ)) (algo : String)
    (b : ℕ) (r₁ r₂ : Rng) (s fuel : ℕ) (probeOutcome : Except PyErr ℚ)
    (h : ∀ i, i < fuel * ((dimOf density bounds + 1) * b) → r₁ (s + i) = r₂ (s + i)) :
    sampleMethod density kw opt nOpt bounds algo b r₁ s fuel probeOutcome
      = sampleMethod density kw opt nOpt bounds algo b r₂ s fuel probeOutcome := by
  unfold sampleMethod
  rw [sppSample_congr density kw opt nOpt bounds algo b r₁ r₂ s fuel h]

/-- C9 witness: two distinct streams that agree on the consumed prefix
give identical outputs at a concrete two-dimensional call. -/
theorem sample_deterministic_w :
    sampleMethod (.callable fun _ => 1) [] (fun _ x0 _ => x0) (some 1)
      [(0, 1), (0, 1)] "thinning" 1 (fun _ => 1/2) 0 2 (.ok 0)
      = sampleMethod (.callable fun _ => 1) [] (fun _ x0 _ => x0) (some 1)
        [(0, 1), (0, 1)] "thinning" 1 (fun i => if i < 12 then 1/2 else 0) 0 2 (.ok 0) :=
  sample_deterministic (.callable fun _ => 1) [] (fun _ x0 _ => x0) (some 1)
    [(0, 1), (0, 1)] "thinning" 1 (fun _ => 1/2) (fun i => if i < 12 then 1/2 else 0)
    0 2 (.ok 0) (by
      intro i hi
      have h12 : 0 + i < 12 := by
        simp only [dimOf, List.length_cons, List.length_nil] at hi
        omega
      show (1 : ℚ)/2 = if 0 + i < 12 then 1/2 else 0
      rw [if_pos h12])

/-- C10 counterexample: the empty Python list is accepted by the density
setter, but the sample call on it raises `ValueError` (from `np.amax` on
a zero-size array, before the loop ever reads `.shape`), not
`AttributeError` — refuting "every subsequent sample call … raises an
AttributeError" as stated. -/
theorem empty_list_density_raises_value_error :
    densitySetter (.pylist []) = .ok (.pylist [])
    ∧ sppSample (.pylist []) [] (fun _ x0 _ => x0) (some 1) [(0, 1), (0, 1)]
        "thinning" 1000 (fun _ => 1/2) 0 9 = .exn .valueError
    ∧ sppSample (.pylist []) [] (fun _ x0 _ => x0) (some 1) [(0, 1), (0, 1)]
        "thinning" 1000 (fun _ => 1/2) 0 9 ≠ .exn .attributeError :=
  ⟨rfl, by simp [sppSample], by simp [sppSample]⟩

/-- C10 (amended): a non-callable list or tuple density is accepted by
the density setter, and every subsequent sample call on a nonempty such
list (with `n` and bounds supplied, positive `n`, the default algorithm,
and at least one loop iteration) raises `AttributeError` when the
discrete path reads the density's `.shape` attribute; the empty list
instead fails earlier with `ValueError` from the maximum computation. -/
theorem pylist_density_sample_attribute_error (l : List ℚ) (kw : List String)
    (opt : Optimizer) (n b : ℕ) (bounds : List (ℚ × ℚ)) (r : Rng) (s fuel : ℕ)
    (hl : l ≠ []) (hn : 0 < n) (hbounds : bounds ≠ []) (hf : 0 < fuel) :
    densitySetter (.pylist l) = .ok (.pylist l)
    ∧ sppSample (.pylist l) kw opt (some n) bounds "thinning" b r s fuel
        = .exn .attributeError := by
  refine ⟨rfl, ?_⟩
  cases bounds with
  | nil => exact absurd rfl hbounds
  | cons bd0 bdRest =>
    obtain ⟨fuel', rfl⟩ : ∃ fl, fuel = fl + 1 := ⟨fuel - 1, by omega⟩
    simp only [sppSample]
    rw [if_pos trivial, if_neg hl, if_neg (by omega)]

/-- C10 witness: the amended behaviour at the concrete nonempty list
`[1, 2]`. -/
theorem pylist_density_sample_attribute_error_w :
    densitySetter (.pylist [1, 2]) = .ok (.pylist [1, 2])
    ∧ sppSample (.pylist [1, 2]) [] (fun _ x0 _ => x0) (some 1) [(0, 1)]
        "thinning" 1000 (fun _ => 1/2) 0 9 = .exn .attributeError :=
  pylist_density_sample_attribute_error [1, 2] [] (fun _ x0 _ => x0) 1 1000
    [(0, 1)] (fun _ => 1/2) 0 9 (by simp) (by norm_num) (by simp) (by norm_num)

end Stochastic
